import Mathlib

/-!
# Verification of the `parallel_mlps` core against its specification

Shallow embedding of the two core source files of the repository:

* `src/parallel_mlps/autoconstructive/model/parallel_mlp.py`
  (`build_model_ids`, `ParallelMLPs.forward`, `ParallelMLPs.apply_activations`,
  `ParallelMLPs.reset_parameters`, `ParallelMLPs.extract_mlp`);
* `src/parallel_mlps/autoconstructive/utils/multi_confusion_matrix.py`
  (`MultiConfusionMatrix.update`, `calculate_metrics`, `_matthews_corrcoef`).

Tensors of floats are modelled as functions into `ℚ` (exact arithmetic stands
in for "equal up to floating-point tolerance of summation order"); integer
tensors as functions into `ℤ` or `ℕ`; Python lists as `List`; fallible calls
as `Except`.
-/

namespace PMLP

/-! ## Model-ID assignment (`build_model_ids`, parallel_mlp.py lines 20-71) -/

/-- `torch.arange(start, stop, step)` for a positive integer `step`: the values
`start, start+step, ...` strictly below `stop`.  A nonpositive `step` is left
out of the modelled domain (torch raises `RuntimeError` for `step = 0`, which
`build_model_ids` below surfaces as its own error constructor before calling
this function). -/
def arangeI (start stop step : ℤ) : List ℤ :=
  if 0 < step then
    (List.range (if stop ≤ start then 0 else (stop - start - 1).toNat / step.toNat + 1)).map
      (fun k : ℕ => start + step * (k : ℤ))
  else []

/-- One pass of the inner `for structure in neurons_structure` loop of
`build_model_ids` (lines 64-66): for each width in turn, append
`[i] * structure` (empty when the width is `0`, as in Python) and increment the
running model id `i`. -/
def passWidths : List ℕ → ℕ → List ℕ
  | [], _ => []
  | w :: ws, i => List.replicate w i ++ passWidths ws (i + 1)

/-- The `while i < num_parallel_mlps` loop of `build_model_ids` (lines 63-66).
The `fuel` argument only bounds the number of passes so that the recursion is
structural; `build_model_ids` calls it with fuel `num_parallel_mlps`, which is
enough whenever the width list is nonempty (lemma `hiddenLoopFuel_eq`), and
when the width list is empty the loop is never entered because
`num_parallel_mlps = 0`. -/
def hiddenLoopFuel : ℕ → List ℕ → ℕ → ℕ → List ℕ
  | 0, _, _, _ => []
  | fuel + 1, widths, M, i =>
    if i < M then passWidths widths i ++ hiddenLoopFuel fuel widths M (i + widths.length)
    else []

/-- `[i[0] for i in groupby(l)]` (line 68): first element of each maximal run
of equal adjacent elements, carrying the previously emitted element. -/
def groupFirstsAux : Option ℕ → List ℕ → List ℕ
  | _, [] => []
  | prev, x :: rest =>
    if prev = some x then groupFirstsAux prev rest
    else x :: groupFirstsAux (some x) rest

/-- `output__model_id = [i[0] for i in groupby(hidden_neuron__model_id)]`. -/
def groupFirsts (l : List ℕ) : List ℕ := groupFirstsAux none l

/-- Errors raised by `build_model_ids`: the two eager `ValueError`s
(lines 46-53) and the `RuntimeError` that `torch.arange` raises for a zero
step (line 57). -/
inductive BuildError
  | emptyActivations
  | duplicateActivations
  | stepZero
  deriving DecidableEq

/-- The triple returned by `build_model_ids` (line 71). -/
structure BuildResult where
  hidden_neuron__model_id : List ℕ
  output__model_id : List ℕ
  output__architecture_id : List ℕ
  deriving DecidableEq

/-- The neuron-count sequence of a configuration, as natural numbers
(`torch.arange(min_neurons, max_neurons + 1, step).tolist()`, line 57; widths
are consumed as repetition counts `[i] * structure`, so `Int.toNat` matches
Python's `[i] * n = []` for `n ≤ 0`). -/
def widthsOf (min_neurons max_neurons step : ℤ) : List ℕ :=
  (arangeI min_neurons (max_neurons + 1) step).map Int.toNat

/-- Hidden width of model `m`: `neuron_sequence[m mod S]` (the loop walks the
width list cyclically, one model id per width). -/
def wfun (widths : List ℕ) (m : ℕ) : ℕ := widths.getD (m % widths.length) 0

/-- Start offset of model `m` in the packed hidden layer: the sum of all
earlier models' widths. -/
def cumW (widths : List ℕ) (m : ℕ) : ℕ := ((List.range m).map (wfun widths)).sum

/-- Canonical form of `hidden_neuron__model_id`: for each model id `m < M` in
increasing order, a contiguous run of `wfun widths m` copies of `m`. -/
def idList (widths : List ℕ) (M : ℕ) : List ℕ :=
  ((List.range M).map (fun k => List.replicate (wfun widths k) k)).flatten

/-- `num_parallel_mlps = len(neurons_structure) * len(activations) *
repetitions` (line 59). -/
def numModels (repetitions : ℕ) (num_activations : ℕ)
    (min_neurons max_neurons step : ℤ) : ℕ :=
  (widthsOf min_neurons max_neurons step).length * num_activations * repetitions

/-- `build_model_ids(repetitions, activation_functions, min_neurons,
max_neurons, step)` (lines 20-71).  Activation functions enter only through
their class names (`a.__class__.__name__`, line 51), so they are modelled as a
list of names.  Order of effects follows the source: empty-list check,
duplicate check (`len(set(names)) != len(names)`), `torch.arange`, the
id-assignment loop, then the two derived output arrays
(`output__architecture_id` tiles the first `num_activations * S` model ids
`repetitions` times, line 69). -/
def build_model_ids (repetitions : ℕ) (activation_names : List String)
    (min_neurons max_neurons step : ℤ) : Except BuildError BuildResult :=
  if activation_names.length = 0 then .error .emptyActivations
  else if activation_names.dedup.length ≠ activation_names.length then
    .error .duplicateActivations
  else if step = 0 then .error .stepZero
  else
    .ok ⟨hiddenLoopFuel (numModels repetitions activation_names.length min_neurons max_neurons step)
          (widthsOf min_neurons max_neurons step)
          (numModels repetitions activation_names.length min_neurons max_neurons step) 0,
        groupFirsts (hiddenLoopFuel
          (numModels repetitions activation_names.length min_neurons max_neurons step)
          (widthsOf min_neurons max_neurons step)
          (numModels repetitions activation_names.length min_neurons max_neurons step) 0),
        (List.replicate repetitions
          ((groupFirsts (hiddenLoopFuel
            (numModels repetitions activation_names.length min_neurons max_neurons step)
            (widthsOf min_neurons max_neurons step)
            (numModels repetitions activation_names.length min_neurons max_neurons step) 0)).take
              (activation_names.length * (widthsOf min_neurons max_neurons step).length))).flatten⟩

/-! ## Parallel MLP engine (`ParallelMLPs`, parallel_mlp.py lines 74-253)

Value-level model over `ℚ`.  The engine owns the packed parameter tensors
(`__init__` lines 120-130): `hidden_layer = nn.Linear(in_features,
total_hidden_neurons)` (weight `[total, in]`, bias `[total]`), the output
weight `[out_features, total]` and the per-model output bias
`[num_unique_models, out_features]`.  The `device` and `logger` fields have no
effect on computed values and are omitted.  Activation modules are elementwise
functions, modelled as an index-addressed family `ℕ → ℚ → ℚ` (the list
`self.activations`). -/
structure Engine where
  in_features : ℕ
  out_features : ℕ
  hidden_neuron__model_id : List ℕ
  num_activations : ℕ
  activations : ℕ → ℚ → ℚ
  hiddenWeight : ℕ → ℕ → ℚ
  hiddenBias : ℕ → ℚ
  outWeight : ℕ → ℕ → ℚ
  outBias : ℕ → ℕ → ℚ

/-- `self.total_hidden_neurons = len(self.hidden_neuron__model_id)` (line 101). -/
def Engine.total (e : Engine) : ℕ := e.hidden_neuron__model_id.length

/-- The model id owning hidden neuron `n` (the `hidden_neuron__model_id`
mapping, line 95). -/
def Engine.nid (e : Engine) (n : ℕ) : ℕ := e.hidden_neuron__model_id.getD n 0

/-- `self.activations_split = self.total_hidden_neurons // self.num_activations`
(line 118). -/
def Engine.activationsSplit (e : Engine) : ℕ := e.total / e.num_activations

/-- The hidden affine layer `self.hidden_layer(x)` (line 176):
`nn.Linear` computes `x @ W.T + b`, so neuron `n` gets
`∑ j, W[n, j] * x[j] + b[n]`. -/
def Engine.hiddenOut (e : Engine) (x : ℕ → ℚ) (n : ℕ) : ℚ :=
  (∑ j ∈ Finset.range e.in_features, e.hiddenWeight n j * x j) + e.hiddenBias n

/-- `ParallelMLPs.forward` (lines 174-198) at batch row `b`, model `m`, output
feature `o`.  Steps of the source, all pointwise in the batch dimension:
hidden affine (line 176); `apply_activations` (line 177), which splits the
hidden columns into `num_activations` chunks of `activations_split` columns so
position `n` is activated by `self.activations[n / activations_split]` (for
the divisible layouts produced by `build_model_ids`; see
`apply_activations_chunks` and `chunks_value_getD` for the raw
`torch.split`-based semantics); the elementwise product against `weight.T`
(lines 179-181) making neuron `n` contribute `act(h n) * weight[o, n]`; the
`scatter_add_` keyed by `hidden_neuron__model_id` (lines 184-194) summing the
contributions of the neurons owned by model `m`; and the bias row `m`
(line 195). -/
def Engine.forward (e : Engine) (X : ℕ → ℕ → ℚ) (b m o : ℕ) : ℚ :=
  (((List.range e.total).map (fun n =>
    if e.nid n = m then
      e.activations (n / e.activationsSplit) (e.hiddenOut (X b) n) * e.outWeight o n
    else 0)).sum) + e.outBias m o

/-- The boolean-mask row selection of `extract_mlp`
(`model_neurons = self.hidden_neuron__model_id == model_id`, line 223): the
indices of model `m`'s hidden neurons in increasing order. -/
def Engine.selIdx (e : Engine) (m : ℕ) : List ℕ :=
  (List.range e.total).filter (fun n => e.nid n = m)

/-- `activation_index = torch.nonzero(mask)[0] // self.activations_split`
(lines 233-236): the first selected neuron's index, integer-divided by the
chunk size.  (`nonzero(...)[0]` raises on a model with no neurons; `headD 0`
is the total stand-in, and every claim using this keeps the selection
nonempty.) -/
def Engine.extractActIdx (e : Engine) (m : ℕ) : ℕ :=
  (e.selIdx m).headD 0 / e.activationsSplit

/-- The standalone network returned by `extract_mlp(model_id)`
(lines 214-248), applied to batch row `b`, at output feature `o`:
`nn.Sequential(hidden_layer, activation, out_layer)` where the extracted
hidden layer's rows are `hidden_layer.weight[model_neurons, :]` and
`hidden_layer.bias[model_neurons]` (lines 224-225, copied 242-243), the
extracted output layer's columns are `self.weight[:, model_neurons]` and its
bias is `self.bias[model_id, :]` (lines 227-228, copied 245-246), and the
single activation is `self.activations[activation_index]` (line 237).
Composing the three layers, output `o` is the sum over the selected neurons
`n` of `weight[o, n] * act(hidden n)` plus the model's output bias. -/
def Engine.extractForward (e : Engine) (m : ℕ) (X : ℕ → ℕ → ℚ) (b o : ℕ) : ℚ :=
  ((e.selIdx m).map (fun n =>
    e.outWeight o n * e.activations (e.extractActIdx m) (e.hiddenOut (X b) n))).sum
  + e.outBias m o

/-- Modelled from the spec: "activation function assignment for model m is
`activations[(m // S) mod K]`" — the claimed activation index, kept as a
separate definition so it can be compared against what the code computes. -/
def specActivationIndex (S K m : ℕ) : ℕ := (m / S) % K

/-! ## `apply_activations` at the shape level (`torch.split` semantics) -/

/-- `Tensor.split(split_size)` along the hidden dimension (line 162):
`⌈len/split⌉` chunks of `split` entries each, the last one smaller when
`split` does not divide the length.  (`split_size = 0` on a nonempty
dimension raises in torch; `apply_activations_chunks` models that guard.) -/
def chunkList {α : Type} (split : ℕ) (l : List α) : List (List α) :=
  if split = 0 then []
  else (List.range ((l.length + split - 1) / split)).map
    (fun k => (l.drop (k * split)).take split)

/-- `ParallelMLPs.apply_activations` (lines 161-172) on one batch row:
split into chunks of `split` columns; `zip(self.activations, tensors)`
truncates to the shorter of the two; each zipped chunk's width is compared
against `tensors[0]`'s width, raising the `RuntimeError` ("sub_tensors with
different number of parameters per activation" — the spec's
`ShapeMismatchError`) on a mismatch; otherwise each chunk is mapped through
its activation and the results concatenated (lines 170-171). -/
def apply_activations_chunks (K : ℕ) (acts : ℕ → ℚ → ℚ) (split : ℕ) (h : List ℚ) :
    Except String (List ℚ) :=
  if split = 0 ∧ h ≠ [] then .error "split_size_zero"
  else
    if ((List.range K).zip (chunkList split h)).all
        (fun p => p.2.length = ((chunkList split h).headD []).length) then
      .ok ((((List.range K).zip (chunkList split h)).map
        (fun p => p.2.map (acts p.1))).flatten)
    else .error "ShapeMismatch"

/-- The shape-relevant prefix of `forward` (lines 176-181) on one batch row
`h` of hidden pre-activations: `apply_activations` with
`split = total // num_activations`, then the elementwise product
`x[:, :, None] * self.weight.T[None, :, :]`, which broadcasts only when the
activated width still equals `total_hidden_neurons` (the width of `weight.T`;
the size-1 broadcast escape cannot arise here since the activated width is
`K * (total // K)`). -/
def forward_shape (K : ℕ) (acts : ℕ → ℚ → ℚ) (h : List ℚ) : Except String (List ℚ) :=
  (apply_activations_chunks K acts (h.length / K) h).bind
    (fun a => if a.length = h.length then .ok a else .error "broadcast_mismatch")

/-! ## `reset_parameters` (lines 141-159) -/

/-- Start offset of model `m`'s slice:
`model_id__start_idx = cat([0], bincount(hidden_neuron__model_id).cumsum()[:-1])`
(lines 103-107), i.e. the number of hidden neurons with a smaller model id. -/
def startNeuron (L : List ℕ) (m : ℕ) : ℕ :=
  ((List.range m).map (fun j => L.count j)).sum

/-- End offset: `model_id__end_idx = start_idx + num_hidden_neurons` (line 108). -/
def endNeuron (L : List ℕ) (m : ℕ) : ℕ := startNeuron L m + L.count m

/-- One iteration of the `for layer_id in layer_ids` loop (lines 146-159):
re-draw the hidden-weight rows and hidden-bias entries in
`[start_idx, end_idx)`, the output-weight columns in the same range, and the
output-bias row `layer_id`.  The `kaiming_uniform_` / `uniform_` draws are
supplied as oracle functions of the absolute entry position: the claims about
this operation concern only which entries are written. -/
def resetOne (e : Engine) (newHW : ℕ → ℕ → ℚ) (newHB : ℕ → ℚ) (newOW : ℕ → ℕ → ℚ)
    (newOB : ℕ → ℕ → ℚ) (lid : ℕ) : Engine :=
  { e with
    hiddenWeight := fun r c =>
      if startNeuron e.hidden_neuron__model_id lid ≤ r
          ∧ r < endNeuron e.hidden_neuron__model_id lid then newHW r c
      else e.hiddenWeight r c,
    hiddenBias := fun r =>
      if startNeuron e.hidden_neuron__model_id lid ≤ r
          ∧ r < endNeuron e.hidden_neuron__model_id lid then newHB r
      else e.hiddenBias r,
    outWeight := fun o c =>
      if startNeuron e.hidden_neuron__model_id lid ≤ c
          ∧ c < endNeuron e.hidden_neuron__model_id lid then newOW o c
      else e.outWeight o c,
    outBias := fun mm o => if mm = lid then newOB mm o else e.outBias mm o }

/-- `reset_parameters(layer_ids)` (lines 141-159) for an explicit list of
model ids (the `layer_ids = None` default re-draws every model and is not
needed by the claims). -/
def reset_parameters (e : Engine) (newHW : ℕ → ℕ → ℚ) (newHB : ℕ → ℚ)
    (newOW : ℕ → ℕ → ℚ) (newOB : ℕ → ℕ → ℚ) (layer_ids : List ℕ) : Engine :=
  layer_ids.foldl (fun acc lid => resetOne acc newHW newHB newOW newOB lid) e

/-! ## `MultiConfusionMatrix` (multi_confusion_matrix.py) -/

/-- Compute locations. -/
inductive Device
  | cpu
  | cuda
  deriving DecidableEq

/-- The accumulator state: `self.cm` is the integer count tensor
`[n_models, n_classes, n_classes]` (rows = ground truth, cols = predictions),
kept on `self.device` (`__init__` lines 12-31). -/
structure MCM where
  n_models : ℕ
  n_classes : ℕ
  device : Device
  cm : ℕ → ℕ → ℕ → ℤ

/-- `MultiConfusionMatrix(n_models, n_classes, device)`: `cm = zeros` (line 22). -/
def MCM.init (n_models n_classes : ℕ) (device : Device) : MCM :=
  ⟨n_models, n_classes, device, fun _ _ _ => 0⟩

/-- Index validity for `index_put_`: matching batch lengths
(`targets[:, None]` broadcasts against `predictions [batch, n_models]`) and
all class indices in range (out-of-range indexing raises `IndexError`). -/
def MCM.validBatch (st : MCM) (predictions : List (ℕ → ℕ)) (targets : List ℕ) : Prop :=
  predictions.length = targets.length
  ∧ (∀ t ∈ targets, t < st.n_classes)
  ∧ (∀ p ∈ predictions, ∀ j < st.n_models, p j < st.n_classes)

instance (st : MCM) (predictions : List (ℕ → ℕ)) (targets : List ℕ) :
    Decidable (st.validBatch predictions targets) := by
  unfold MCM.validBatch
  infer_instance

/-- `MultiConfusionMatrix.update(predictions, targets)` (lines 33-51).
`predictions` is the batch of per-model predicted class indices (row `i`,
model `j`; the `ndim > 2` arg-max branch of line 41-42 reduces the score form
to this form and is orthogonal to all claims here), tagged with the tensor's
device; likewise `targets`.  Lines 44-45 relocate `predictions` (and only
`predictions`) to `self.cm.device`, so the result never depends on
`predictions_device`.  `targets` is used as an index tensor as-is:
`index_put_` accepts index tensors on the indexed tensor's device or on the
CPU and raises a `RuntimeError` otherwise.  The accumulated write
(`accumulate=True`, lines 47-51) adds `1` at `cm[j, targets[i],
predictions[i, j]]` for every sample `i` and model `j` in one vectorized
operation, modelled by counting the matching samples. -/
def MCM.update (st : MCM) (predictions_device : Device) (predictions : List (ℕ → ℕ))
    (targets_device : Device) (targets : List ℕ) : Except String MCM :=
  if targets_device = st.device ∨ targets_device = Device.cpu then
    if st.validBatch predictions targets then
      .ok { st with cm := fun j a b => st.cm j a b +
        if j < st.n_models then
          (((targets.zip predictions).countP (fun tp => tp.1 = a ∧ tp.2 j = b) : ℕ) : ℤ)
        else 0 }
    else .error "IndexError"
  else .error "index_device"

/-- Total count accumulated in model `j`'s confusion matrix (`cm[j].sum()`). -/
def MCM.entrySum (st : MCM) (j : ℕ) : ℤ :=
  ∑ a ∈ Finset.range st.n_classes, ∑ b ∈ Finset.range st.n_classes, st.cm j a b

/-- `self.total_samples = self.cm[0].sum()` (line 55): `calculate_metrics`
normalizes every model by model 0's total. -/
def MCM.totalSamples (st : MCM) : ℤ := st.entrySum 0

/-- `self.tp = self.cm.diagonal(dim1=-1, dim2=-2)` (line 57). -/
def MCM.tp (st : MCM) (j c : ℕ) : ℤ := st.cm j c c

/-- `n_correct = self.tp.sum(-1)` (line 89), also the accuracy numerator (line 61). -/
def MCM.tpSum (st : MCM) (j : ℕ) : ℤ := ∑ c ∈ Finset.range st.n_classes, st.tp j c

/-- `t_sum = C.sum(dim=-1)` (line 87), the ground-truth row sums (also
`self.cm.sum(-1)` of line 58). -/
def MCM.rowSum (st : MCM) (j c : ℕ) : ℤ := ∑ b ∈ Finset.range st.n_classes, st.cm j c b

/-- `p_sum = C.sum(dim=-2)` (line 88), the prediction column sums (also
`self.cm.sum(-2)` of line 59). -/
def MCM.colSum (st : MCM) (j c : ℕ) : ℤ := ∑ a ∈ Finset.range st.n_classes, st.cm j a c

/-- `self.fn = self.cm.sum(-1) - self.tp` (line 58). -/
def MCM.fn (st : MCM) (j c : ℕ) : ℤ := st.rowSum j c - st.tp j c

/-- `self.fp = self.cm.sum(-2) - self.tp` (line 59). -/
def MCM.fp (st : MCM) (j c : ℕ) : ℤ := st.colSum j c - st.tp j c

/-- `self.tn = self.total_samples - self.fn - self.fp - self.tp` (line 60). -/
def MCM.tn (st : MCM) (j c : ℕ) : ℤ :=
  st.totalSamples - st.fn j c - st.fp j c - st.tp j c

/-- `cov_ytyp = n_correct * total_samples - (t_sum * p_sum).sum(-1)` (line 90). -/
def MCM.covYtyp (st : MCM) (j : ℕ) : ℤ :=
  st.tpSum j * st.totalSamples
    - ∑ c ∈ Finset.range st.n_classes, st.rowSum j c * st.colSum j c

/-- `cov_ypyp = total_samples ** 2 - (p_sum * p_sum).sum(-1)` (line 93). -/
def MCM.covYpyp (st : MCM) (j : ℕ) : ℤ :=
  st.totalSamples ^ 2 - ∑ c ∈ Finset.range st.n_classes, st.colSum j c ^ 2

/-- `cov_ytyt = total_samples ** 2 - (t_sum * t_sum).sum(-1)` (line 96). -/
def MCM.covYtyt (st : MCM) (j : ℕ) : ℤ :=
  st.totalSamples ^ 2 - ∑ c ∈ Finset.range st.n_classes, st.rowSum j c ^ 2

/-- Value of one entry of the `_matthews_corrcoef` result vector.
`divSqrt num radicand` stands for the float `num / sqrt(radicand)`
(line 100); `sentinel eps` is the value written over the masked entries. -/
inductive MattVal
  | sentinel (eps : ℚ)
  | divSqrt (num : ℤ) (radicand : ℤ)
  deriving DecidableEq

/-- `_matthews_corrcoef` (lines 76-105) per model: the division of line 100
produces `cov_ytyp / sqrt(cov_ytyt * cov_ypyp)` (a float NaN/inf where the
radicand is zero), and line 101-103 then overwrites every entry with
`(cov_ypyp * cov_ytyt) == 0` by the constant `0.000000001`; the masked
entries therefore end up as the sentinel regardless of the division. -/
def MCM.matthews (st : MCM) (j : ℕ) : MattVal :=
  if st.covYpyp j * st.covYtyt j = 0 then .sentinel (1 / 1000000000)
  else .divSqrt (st.covYtyp j) (st.covYtyt j * st.covYpyp j)

/-- The metrics dictionary of `calculate_metrics` (lines 53-64). -/
structure Metrics where
  overall_acc : ℕ → ℚ
  matthews_corrcoef : ℕ → MattVal

/-- `calculate_metrics` (lines 53-64): `overall_acc = tp.sum(-1) /
total_samples` (float division, exact here), `matthews_corrcoef =
_matthews_corrcoef()`. -/
def MCM.calculate_metrics (st : MCM) : Metrics :=
  { overall_acc := fun j => (st.tpSum j : ℚ) / (st.totalSamples : ℚ)
    matthews_corrcoef := fun j => st.matthews j }

/-! ## Concrete instances used by witnesses and counterexamples -/

/-- The engine built from `build_model_ids(repetitions=2,
[LeakyReLU-kind, Sigmoid-kind], min=1, max=1, step=1)`:
`hidden_neuron__model_id = [0, 1, 2, 3]`, two activations (index 0 maps
everything to `0`, index 1 maps everything to `1`, so the two are
distinguishable), unit output weights and zero biases. -/
def engC2 : Engine :=
  ⟨1, 1, [0, 1, 2, 3], 2, (fun k _ => if k = 0 then 0 else 1),
    (fun _ _ => 0), (fun _ => 0), (fun _ _ => 1), (fun _ _ => 0)⟩

/-- A two-model engine (`hidden_neuron__model_id = [0, 1]`) with zero
parameters, used to witness the `reset_parameters` frame property. -/
def engC9 : Engine :=
  ⟨1, 1, [0, 1], 2, (fun _ q => q), (fun _ _ => 0), (fun _ => 0),
    (fun _ _ => 0), (fun _ _ => 0)⟩

/-- An accumulated single-model binary confusion matrix in which the model
predicted class `0` on every sample (one sample of each true class):
`cm[0] = [[1, 0], [1, 0]]`. -/
def stC7 : MCM :=
  ⟨1, 2, Device.cpu, fun j a b => if j = 0 ∧ b = 0 ∧ (a = 0 ∨ a = 1) then 1 else 0⟩

lemma cumW_succ (widths : List ℕ) (m : ℕ) :
    cumW widths (m + 1) = cumW widths m + wfun widths m := by
  simp [cumW, List.range_succ]

lemma cumW_mono (widths : List ℕ) {a b : ℕ} (h : a ≤ b) :
    cumW widths a ≤ cumW widths b := by
  induction h with
  | refl => exact le_rfl
  | step _ ih => rename_i n _; exact le_trans ih (by rw [cumW_succ]; exact Nat.le_add_right _ _)

lemma idList_succ (widths : List ℕ) (M : ℕ) :
    idList widths (M + 1) = idList widths M ++ List.replicate (wfun widths M) M := by
  simp [idList, List.range_succ]

lemma length_idList (widths : List ℕ) (M : ℕ) :
    (idList widths M).length = cumW widths M := by
  induction M with
  | zero => simp [idList, cumW]
  | succ n ih => rw [idList_succ, cumW_succ, List.length_append, ih, List.length_replicate]

lemma passWidths_eq (ws : List ℕ) : ∀ i, passWidths ws i =
    ((List.range ws.length).map (fun k => List.replicate (ws.getD k 0) (i + k))).flatten := by
  induction ws with
  | nil => intro i; rfl
  | cons w ws ih =>
    intro i
    calc passWidths (w :: ws) i = List.replicate w i ++ passWidths ws (i + 1) := rfl
    _ = List.replicate w i
        ++ ((List.range ws.length).map
            (fun k => List.replicate (ws.getD k 0) ((i + 1) + k))).flatten := by rw [ih]
    _ = _ := by
        have hfun : ((fun k => List.replicate ((w :: ws).getD k 0) (i + k)) ∘ Nat.succ)
            = (fun k => List.replicate (ws.getD k 0) ((i + 1) + k)) := by
          funext k
          simp only [Function.comp_apply, List.getD_cons_succ]
          congr 1
          omega
        rw [List.length_cons, List.range_succ_eq_map, List.map_cons, List.flatten_cons,
          List.map_map, hfun]
        simp

lemma hiddenLoopFuel_eq (ws : List ℕ) (hw : ws ≠ []) :
    ∀ (q fuel i : ℕ), q ≤ fuel →
      hiddenLoopFuel fuel ws (i + q * ws.length) i
        = ((List.range (q * ws.length)).map
            (fun k => List.replicate (wfun ws k) (i + k))).flatten := by
  intro q
  induction q with
  | zero =>
    intro fuel i _
    cases fuel with
    | zero => simp [hiddenLoopFuel]
    | succ f => simp [hiddenLoopFuel]
  | succ q ih =>
    intro fuel i hq
    obtain ⟨f, rfl⟩ : ∃ f, fuel = f + 1 := ⟨fuel - 1, by omega⟩
    have hlen : 0 < ws.length := List.length_pos.mpr hw
    have hlt : i < i + (q + 1) * ws.length := by
      have : 0 < (q + 1) * ws.length := Nat.mul_pos (Nat.succ_pos q) hlen
      omega
    have hshift : i + (q + 1) * ws.length = (i + ws.length) + q * ws.length := by ring
    rw [hiddenLoopFuel, if_pos hlt, hshift, ih f (i + ws.length) (by omega)]
    have hsplit : (q + 1) * ws.length = ws.length + q * ws.length := by ring
    rw [hsplit, List.range_add, List.map_append, List.flatten_append, passWidths_eq ws i,
      List.map_map]
    congr 1
    · congr 1
      apply List.map_congr_left
      intro k hk
      have hk' : k < ws.length := List.mem_range.mp hk
      simp only [wfun, Nat.mod_eq_of_lt hk']
    · congr 1
      apply List.map_congr_left
      intro k _
      simp only [Function.comp_apply, wfun, Nat.add_mod_left]
      congr 1
      omega

lemma widthsOf_length_pos {minN maxN step : ℤ} (hmm : minN ≤ maxN) (hstep : 1 ≤ step) :
    0 < (widthsOf minN maxN step).length := by
  unfold widthsOf
  rw [List.length_map]
  unfold arangeI
  rw [if_pos (by omega : (0:ℤ) < step), if_neg (by omega : ¬ maxN + 1 ≤ minN)]
  rw [List.length_map, List.length_range]
  exact Nat.succ_pos _

lemma arangeI_getElem {start stop step : ℤ} (hstep : 0 < step) (j : ℕ)
    (hj : j < (arangeI start stop step).length) :
    (arangeI start stop step)[j] = start + step * j := by
  simp only [arangeI, if_pos hstep] at hj ⊢
  simp [List.getElem_map, List.getElem_range]

lemma widthsOf_getD_pos {minN maxN step : ℤ} (hmin : 1 ≤ minN) (hstep : 1 ≤ step) :
    ∀ j < (widthsOf minN maxN step).length, 0 < (widthsOf minN maxN step).getD j 0 := by
  intro j hj
  have hjl : j < (arangeI minN (maxN + 1) step).length := by
    unfold widthsOf at hj
    rw [List.length_map] at hj
    exact hj
  rw [List.getD_eq_getElem _ _ hj]
  simp only [widthsOf, List.getElem_map]
  rw [arangeI_getElem (by omega : (0:ℤ) < step) j hjl]
  have hnn : (0:ℤ) ≤ step * j := by positivity
  omega

lemma wfun_pos {minN maxN step : ℤ} (hmin : 1 ≤ minN) (hmm : minN ≤ maxN) (hstep : 1 ≤ step)
    (m : ℕ) : 0 < wfun (widthsOf minN maxN step) m := by
  unfold wfun
  exact widthsOf_getD_pos hmin hstep _
    (Nat.mod_lt _ (widthsOf_length_pos hmm hstep))

lemma loop_eq_idList (R K : ℕ) (minN maxN step : ℤ) (hmm : minN ≤ maxN) (hstep : 1 ≤ step) :
    hiddenLoopFuel (numModels R K minN maxN step) (widthsOf minN maxN step)
        (numModels R K minN maxN step) 0
      = idList (widthsOf minN maxN step) (numModels R K minN maxN step) := by
  have hw : widthsOf minN maxN step ≠ [] :=
    List.length_pos.mp (widthsOf_length_pos hmm hstep)
  have hq : numModels R K minN maxN step
      = 0 + (K * R) * (widthsOf minN maxN step).length := by
    unfold numModels; ring
  have hfuel : K * R ≤ numModels R K minN maxN step := by
    unfold numModels
    have := widthsOf_length_pos hmm hstep
    nlinarith
  conv_lhs => rw [hq]
  rw [hiddenLoopFuel_eq (widthsOf minN maxN step) hw (K * R)
    (0 + K * R * (widthsOf minN maxN step).length) 0 (by omega)]
  unfold idList
  rw [hq]
  simp only [Nat.zero_add]

/-- On a valid configuration, `build_model_ids` succeeds: the
`hidden_neuron__model_id` it returns is the canonical `idList` (each model id
`m < M` in increasing order, repeated `neuron_sequence[m mod S]` times), and
the two output arrays are derived from it as in the source. -/
lemma build_model_ids_eq (R : ℕ) (names : List String) (minN maxN step : ℤ)
    (hne : names ≠ []) (hnd : names.Nodup) (hmm : minN ≤ maxN) (hstep : 1 ≤ step) :
    build_model_ids R names minN maxN step
      = .ok ⟨idList (widthsOf minN maxN step) (numModels R names.length minN maxN step),
          groupFirsts (idList (widthsOf minN maxN step)
            (numModels R names.length minN maxN step)),
          (List.replicate R ((groupFirsts (idList (widthsOf minN maxN step)
            (numModels R names.length minN maxN step))).take
              (names.length * (widthsOf minN maxN step).length))).flatten⟩ := by
  unfold build_model_ids
  rw [if_neg (by simpa using hne), if_neg (by rw [List.dedup_eq_self.mpr hnd]; simp),
    if_neg (by omega : ¬ step = 0), loop_eq_idList R names.length minN maxN step hmm hstep]

lemma build_model_ids_hid (R : ℕ) (names : List String) (minN maxN step : ℤ)
    (hne : names ≠ []) (hnd : names.Nodup) (hmm : minN ≤ maxN) (hstep : 1 ≤ step) :
    ∃ out_mid out_arch,
      build_model_ids R names minN maxN step
        = .ok ⟨idList (widthsOf minN maxN step) (numModels R names.length minN maxN step),
            out_mid, out_arch⟩ :=
  ⟨_, _, build_model_ids_eq R names minN maxN step hne hnd hmm hstep⟩

lemma count_idList_ge (widths : List ℕ) : ∀ M m, M ≤ m → (idList widths M).count m = 0 := by
  intro M
  induction M with
  | zero => intro m _; simp [idList]
  | succ n ih =>
    intro m hm
    rw [idList_succ, List.count_append, ih m (by omega), List.count_replicate]
    simp only [beq_iff_eq]
    rw [if_neg (by omega : ¬ n = m)]

lemma count_idList (widths : List ℕ) : ∀ M m, m < M →
    (idList widths M).count m = wfun widths m := by
  intro M
  induction M with
  | zero => intro m hm; omega
  | succ n ih =>
    intro m hm
    rw [idList_succ, List.count_append, List.count_replicate]
    simp only [beq_iff_eq]
    by_cases h : m = n
    · subst h
      rw [count_idList_ge widths m m le_rfl, if_pos rfl]
      simp
    · rw [ih m (by omega), if_neg (by omega : ¬ n = m)]
      simp

lemma idList_getD (widths : List ℕ) : ∀ M m, m < M → ∀ k, k < wfun widths m →
    (idList widths M).getD (cumW widths m + k) 0 = m := by
  intro M
  induction M with
  | zero => intro m hm; omega
  | succ n ih =>
    intro m hm k hk
    rw [idList_succ]
    by_cases h : m = n
    · subst h
      rw [List.getD_append_right _ _ _ _ (by rw [length_idList]; omega)]
      rw [length_idList]
      have hpos : cumW widths m + k - cumW widths m = k := by omega
      rw [hpos, List.getD_eq_getElem _ _ (by rw [List.length_replicate]; exact hk),
        List.getElem_replicate]
    · have hmn : m < n := by omega
      have hlt : cumW widths m + k < (idList widths n).length := by
        rw [length_idList]
        calc cumW widths m + k < cumW widths (m + 1) := by rw [cumW_succ]; omega
        _ ≤ cumW widths n := cumW_mono widths (by omega)
      rw [List.getD_append _ _ _ _ hlt]
      exact ih m hmn k hk

lemma idList_cover (widths : List ℕ) : ∀ M n, n < cumW widths M →
    ∃ m, m < M ∧ ∃ k, k < wfun widths m ∧ n = cumW widths m + k := by
  intro M
  induction M with
  | zero => intro n hn; simp [cumW] at hn
  | succ q ih =>
    intro n hn
    rw [cumW_succ] at hn
    by_cases h : n < cumW widths q
    · obtain ⟨m, hm, k, hk, hnk⟩ := ih n h
      exact ⟨m, by omega, k, hk, hnk⟩
    · exact ⟨q, by omega, n - cumW widths q, by omega, by omega⟩

/-- Position membership for the canonical id list: at positions `n` inside the
list, the entry is `m` iff `n` falls inside model `m`'s contiguous block. -/
lemma idList_getD_eq_iff (widths : List ℕ) (M m n : ℕ) (hm : m < M)
    (hn : n < cumW widths M) :
    (idList widths M).getD n 0 = m
      ↔ (cumW widths m ≤ n ∧ n < cumW widths m + wfun widths m) := by
  constructor
  · intro h
    obtain ⟨m', hm', k, hk, rfl⟩ := idList_cover widths M n hn
    rw [idList_getD widths M m' hm' k hk] at h
    subst h
    omega
  · rintro ⟨hlo, hhi⟩
    have : n = cumW widths m + (n - cumW widths m) := by omega
    rw [this]
    exact idList_getD widths M m hm _ (by omega)

lemma wfun_period (widths : List ℕ) (m : ℕ) :
    wfun widths (m + widths.length) = wfun widths m := by
  simp [wfun, Nat.add_mod_right]

lemma cumW_add_period (widths : List ℕ) :
    ∀ m, cumW widths (m + widths.length) = cumW widths m + cumW widths widths.length := by
  intro m
  induction m with
  | zero => simp [cumW]
  | succ n ih =>
    have h1 : n + 1 + widths.length = (n + widths.length) + 1 := by omega
    rw [h1, cumW_succ, ih, wfun_period, cumW_succ]
    ring

lemma cumW_decomp (widths : List ℕ) :
    ∀ q r, cumW widths (q * widths.length + r)
      = q * cumW widths widths.length + cumW widths r := by
  intro q
  induction q with
  | zero => intro r; simp
  | succ p ih =>
    intro r
    have h1 : (p + 1) * widths.length + r = (p * widths.length + r) + widths.length := by ring
    rw [h1, cumW_add_period, ih]
    ring

/-- Chunk alignment: every hidden neuron of model `m` lies in activation chunk
`m / (S * R)` of the packed hidden layer, when chunks have size
`R * cumW widths S` (which equals `total_hidden_neurons / K`). -/
lemma fiber_chunk (widths : List ℕ) (R : ℕ) (hR : 0 < R)
    (hC : 0 < cumW widths widths.length) (m n : ℕ)
    (hlo : cumW widths m ≤ n) (hhi : n < cumW widths m + wfun widths m) :
    n / (R * cumW widths widths.length) = m / (widths.length * R) := by
  set S := widths.length with hS
  set C := cumW widths S with hCdef
  have hSpos : 0 < S := by
    by_contra h
    have : S = 0 := by omega
    rw [hCdef, this] at hC
    simp [cumW] at hC
  have hmod : S * (m / S) + m % S = m := Nat.div_add_mod m S
  set q := m / S with hq
  set r := m % S with hr
  have hrS : r < S := Nat.mod_lt _ hSpos
  have hdecomp : cumW widths m = q * C + cumW widths r := by
    rw [← hmod, Nat.mul_comm S q]
    exact cumW_decomp widths q r
  have hup : cumW widths m + wfun widths m = q * C + cumW widths (r + 1) := by
    rw [hdecomp, cumW_succ]
    have : wfun widths m = wfun widths r := by
      unfold wfun
      congr 1
      rw [hr, hS]
      exact (Nat.mod_mod_of_dvd m dvd_rfl).symm
    rw [this]
    ring
  have hsub : cumW widths (r + 1) ≤ C := cumW_mono widths (by omega)
  have hlo' : q * C ≤ n := by omega
  have hhi' : n < (q + 1) * C := by
    calc n < cumW widths m + wfun widths m := hhi
    _ = q * C + cumW widths (r + 1) := hup
    _ ≤ q * C + C := by omega
    _ = (q + 1) * C := by ring
  have hgoal : n / (R * C) = q / R := by
    apply Nat.div_eq_of_lt_le
    · calc q / R * (R * C) = (q / R * R) * C := by ring
      _ ≤ q * C := Nat.mul_le_mul_right C (Nat.div_mul_le_self q R)
      _ ≤ n := hlo'
    · have hqR : q + 1 ≤ (q / R + 1) * R := by
        have h1 : R * (q / R) + q % R = q := Nat.div_add_mod q R
        have h2 : q % R < R := Nat.mod_lt _ hR
        have h3 : (q / R + 1) * R = R * (q / R) + R := by ring
        omega
      calc n < (q + 1) * C := hhi'
      _ ≤ ((q / R + 1) * R) * C := Nat.mul_le_mul_right C hqR
      _ = (q / R + 1) * (R * C) := by ring
  rw [hgoal, hq, Nat.div_div_eq_div_mul]

lemma sum_map_ite_eq_filter (l : List ℕ) (p : ℕ → Prop) [DecidablePred p] (f : ℕ → ℚ) :
    (l.map (fun n => if p n then f n else 0)).sum
      = ((l.filter (fun n => decide (p n))).map f).sum := by
  induction l with
  | nil => rfl
  | cons a l ih =>
    by_cases h : p a
    · simp [List.filter_cons, h, ih]
    · simp [List.filter_cons, h, ih]

/-- The scatter-add bucket of model `m` in `forward` is the sum over exactly
the neurons selected by `extract_mlp`'s boolean mask; when all of those
neurons fall into the same activation chunk as the first one, the two
computations agree exactly. -/
lemma forward_eq_extract_core (e : Engine) (m : ℕ)
    (hconst : ∀ n ∈ e.selIdx m, n / e.activationsSplit = e.extractActIdx m)
    (X : ℕ → ℕ → ℚ) (b o : ℕ) :
    e.extractForward m X b o = e.forward X b m o := by
  unfold Engine.extractForward Engine.forward
  congr 1
  rw [sum_map_ite_eq_filter (List.range e.total) (fun n => e.nid n = m)]
  have hsel : (List.range e.total).filter (fun n => decide (e.nid n = m)) = e.selIdx m := rfl
  rw [hsel]
  apply congrArg List.sum
  apply List.map_congr_left
  intro n hn
  rw [hconst n hn]
  ring

/-- For an engine whose `hidden_neuron__model_id` is a canonical `idList`
layout with `M = (K*R)*S` models and positive widths: every model's neuron
selection is nonempty, all its neurons share the activation-chunk index
`m / (S*R)`, and `extract_mlp`'s `activation_index` is that same index. -/
lemma engine_idList_facts (e : Engine) (widths : List ℕ) (R : ℕ)
    (hL : e.hidden_neuron__model_id
        = idList widths ((e.num_activations * R) * widths.length))
    (hR : 0 < R) (hK : 0 < e.num_activations)
    (hwpos : ∀ j, 0 < wfun widths j)
    (m : ℕ) (hm : m < (e.num_activations * R) * widths.length) :
    e.selIdx m ≠ []
    ∧ (∀ n ∈ e.selIdx m, n / e.activationsSplit = m / (widths.length * R))
    ∧ e.extractActIdx m = m / (widths.length * R) := by
  have hSpos : 0 < widths.length := by
    by_contra h
    have hnil : widths = [] := by
      cases widths with
      | nil => rfl
      | cons a t => simp at h
    have := hwpos 0
    rw [hnil] at this
    simp [wfun] at this
  have hCpos : 0 < cumW widths widths.length := by
    have h1 : cumW widths 1 = wfun widths 0 := by
      rw [show (1:ℕ) = 0 + 1 from rfl, cumW_succ]
      simp [cumW]
    calc 0 < wfun widths 0 := hwpos 0
    _ = cumW widths 1 := h1.symm
    _ ≤ cumW widths widths.length := cumW_mono widths hSpos
  have htot : cumW widths ((e.num_activations * R) * widths.length)
      = (e.num_activations * R) * cumW widths widths.length := by
    have h := cumW_decomp widths (e.num_activations * R) 0
    simpa [cumW] using h
  have hsplit : e.activationsSplit = R * cumW widths widths.length := by
    unfold Engine.activationsSplit Engine.total
    rw [hL, length_idList, htot,
      show (e.num_activations * R) * cumW widths widths.length
        = e.num_activations * (R * cumW widths widths.length) by ring]
    exact Nat.mul_div_cancel_left _ (by omega)
  have hmem : ∀ n, n ∈ e.selIdx m
      ↔ (n < cumW widths ((e.num_activations * R) * widths.length)
          ∧ cumW widths m ≤ n ∧ n < cumW widths m + wfun widths m) := by
    intro n
    unfold Engine.selIdx
    rw [List.mem_filter, List.mem_range]
    constructor
    · rintro ⟨hn, hp⟩
      have hn' : n < cumW widths ((e.num_activations * R) * widths.length) := by
        rw [Engine.total, hL, length_idList] at hn
        exact hn
      have hnid : e.nid n = m := of_decide_eq_true hp
      rw [Engine.nid, hL] at hnid
      have := (idList_getD_eq_iff widths _ m n hm hn').mp hnid
      exact ⟨hn', this.1, this.2⟩
    · rintro ⟨hn, hlo, hhi⟩
      constructor
      · rw [Engine.total, hL, length_idList]
        exact hn
      · apply decide_eq_true
        rw [Engine.nid, hL]
        exact (idList_getD_eq_iff widths _ m n hm hn).mpr ⟨hlo, hhi⟩
  have hchunk : ∀ n ∈ e.selIdx m, n / e.activationsSplit = m / (widths.length * R) := by
    intro n hn
    rw [hsplit]
    obtain ⟨_, hlo, hhi⟩ := (hmem n).mp hn
    exact fiber_chunk widths R hR hCpos m n hlo hhi
  have hstartmem : cumW widths m ∈ e.selIdx m := by
    rw [hmem]
    have hwm : 0 < wfun widths m := hwpos m
    refine ⟨?_, le_rfl, by omega⟩
    calc cumW widths m < cumW widths m + wfun widths m := by omega
    _ = cumW widths (m + 1) := (cumW_succ widths m).symm
    _ ≤ cumW widths ((e.num_activations * R) * widths.length) := cumW_mono widths (by omega)
  have hselne : e.selIdx m ≠ [] := by
    intro h
    rw [h] at hstartmem
    exact List.not_mem_nil _ hstartmem
  have hheadmem : (e.selIdx m).headD 0 ∈ e.selIdx m := by
    cases hsel : e.selIdx m with
    | nil => exact absurd hsel hselne
    | cons a t => simp
  refine ⟨hselne, hchunk, ?_⟩
  unfold Engine.extractActIdx
  exact hchunk _ hheadmem

/-- Claim C1: for every `ParallelMLPs` engine constructed from
`build_model_ids` output (valid configuration, arbitrary parameters,
arbitrary elementwise activation functions) and every input batch `X`, for
every model id `m < M`: the standalone network returned by `extract_mlp(m)`
applied to batch row `b` equals `forward(X)[b, m, :]` at every output
feature, exactly (exact `ℚ` arithmetic models "up to floating-point tolerance
of summation order"). -/
theorem C1_forward_extract_equivalence
    (R : ℕ) (names : List String) (minN maxN step : ℤ)
    (hR : 1 ≤ R) (hne : names ≠ []) (hnd : names.Nodup)
    (hmin : 1 ≤ minN) (hmm : minN ≤ maxN) (hstep : 1 ≤ step)
    (res : BuildResult)
    (hres : build_model_ids R names minN maxN step = .ok res)
    (inF outF : ℕ) (acts : ℕ → ℚ → ℚ) (W1 : ℕ → ℕ → ℚ) (b1 : ℕ → ℚ)
    (W2 : ℕ → ℕ → ℚ) (b2 : ℕ → ℕ → ℚ)
    (X : ℕ → ℕ → ℚ) (b m : ℕ)
    (hm : m < numModels R names.length minN maxN step) (o : ℕ) :
    Engine.extractForward
        ⟨inF, outF, res.hidden_neuron__model_id, names.length, acts, W1, b1, W2, b2⟩ m X b o
      = Engine.forward
        ⟨inF, outF, res.hidden_neuron__model_id, names.length, acts, W1, b1, W2, b2⟩ X b m o := by
  obtain ⟨om, oa, heq⟩ := build_model_ids_hid R names minN maxN step hne hnd hmm hstep
  rw [hres] at heq
  have hres_eq := Except.ok.inj heq
  have hhid : res.hidden_neuron__model_id
      = idList (widthsOf minN maxN step) (numModels R names.length minN maxN step) := by
    rw [hres_eq]
  have hM : numModels R names.length minN maxN step
      = (names.length * R) * (widthsOf minN maxN step).length := by
    unfold numModels; ring
  have hL : res.hidden_neuron__model_id
      = idList (widthsOf minN maxN step)
          ((names.length * R) * (widthsOf minN maxN step).length) := by
    rw [hhid, hM]
  obtain ⟨hselne, hchunk, hidx⟩ := engine_idList_facts
    ⟨inF, outF, res.hidden_neuron__model_id, names.length, acts, W1, b1, W2, b2⟩
    (widthsOf minN maxN step) R hL (by omega) (List.length_pos.mpr hne)
    (fun j => wfun_pos hmin hmm hstep j) m (hM ▸ hm)
  exact forward_eq_extract_core _ m (fun n hn => by rw [hchunk n hn, hidx]) X b o

theorem C1_forward_extract_equivalence_witness :
    Engine.extractForward
        ⟨1, 1, [0], 1, (fun _ q => q), (fun _ _ => 1), (fun _ => 0),
          (fun _ _ => 1), (fun _ _ => 0)⟩ 0 (fun _ _ => 1) 0 0
      = Engine.forward
        ⟨1, 1, [0], 1, (fun _ q => q), (fun _ _ => 1), (fun _ => 0),
          (fun _ _ => 1), (fun _ _ => 0)⟩ (fun _ _ => 1) 0 0 0 :=
  C1_forward_extract_equivalence 1 ["ReLU"] 1 1 1 le_rfl (by simp) (by simp)
    le_rfl le_rfl le_rfl ⟨[0], [0], [0]⟩ (by rfl) 1 1 (fun _ q => q) (fun _ _ => 1)
    (fun _ => 0) (fun _ _ => 1) (fun _ _ => 0) (fun _ _ => 1) 0 0 (by decide) 0

/-- Claim C2, evaluated at a failing input.  With `repetitions = 2`, two
activations (`K = 2`) and a single width (`S = 1`), `build_model_ids`
produces `hidden_neuron__model_id = [0, 1, 2, 3]` and
`activations_split = 2`.  Model `1`'s only hidden neuron is neuron `1`, which
lies in activation chunk `1 / 2 = 0`, and `extract_mlp(1)` also selects
activation index `0`; `forward` correspondingly routes model 1's neuron
through `activations[0]` (whose constant value `0` shows up in the output).
The claim's formula `activations[(m // S) mod K]` instead gives index `1`
(whose constant value is `1`).  The engine therefore applies
`activations[m // (S*R)]`, not `activations[(m // S) mod K]`, contradicting
the claim (and `build_model_ids`' own docstring, which says architecture ids
— which tile with period `S*K` — identify the activation function across
repetitions). -/
theorem C2_activation_divergence :
    build_model_ids 2 ["LeakyReLU", "Sigmoid"] 1 1 1
        = .ok ⟨[0, 1, 2, 3], [0, 1, 2, 3], [0, 1, 0, 1]⟩
    ∧ engC2.selIdx 1 = [1]
    ∧ engC2.extractActIdx 1 = 0
    ∧ engC2.forward (fun _ _ => 0) 0 1 0 = 0
    ∧ specActivationIndex 1 2 1 = 1
    ∧ engC2.activations (specActivationIndex 1 2 1) 0 = 1 :=
  ⟨by rfl, by rfl, by rfl, by
    have h4 : List.range 4 = [0, 1, 2, 3] := by rfl
    simp [Engine.forward, engC2, Engine.nid, Engine.activationsSplit, Engine.total,
      Engine.hiddenOut, h4, Finset.sum_range_succ], by rfl, by
    simp [engC2, specActivationIndex]⟩

/-- Claim C3: for every valid configuration (`R ≥ 1`, `K ≥ 1` distinct
activations, `min ≤ max`, `step ≥ 1`), `build_model_ids` returns
`hidden_neuron__model_id` whose length equals the sum of all `M = S*K*R`
model widths, in which each model id `m < M` appears exactly
`neuron_sequence[m mod S]` times, in a single contiguous run, with runs
ordered by increasing model id and no gaps or overlaps (the list is exactly
the concatenation, over `m = 0, ..., M-1` in order, of `width m` copies of
`m`). -/
theorem C3_partition_invariant (R : ℕ) (names : List String) (minN maxN step : ℤ)
    (hR : 1 ≤ R) (hne : names ≠ []) (hnd : names.Nodup)
    (hmm : minN ≤ maxN) (hstep : 1 ≤ step) :
    ∃ res, build_model_ids R names minN maxN step = .ok res
      ∧ res.hidden_neuron__model_id
          = idList (widthsOf minN maxN step) (numModels R names.length minN maxN step)
      ∧ res.hidden_neuron__model_id.length
          = ((List.range (numModels R names.length minN maxN step)).map
              (wfun (widthsOf minN maxN step))).sum
      ∧ (∀ m < numModels R names.length minN maxN step,
          res.hidden_neuron__model_id.count m = wfun (widthsOf minN maxN step) m) := by
  obtain ⟨om, oa, heq⟩ := build_model_ids_hid R names minN maxN step hne hnd hmm hstep
  refine ⟨_, heq, rfl, ?_, ?_⟩
  · exact length_idList _ _
  · intro m hm
    exact count_idList _ _ m hm

theorem C3_partition_invariant_witness :
    ∃ res, build_model_ids 1 ["ReLU"] 1 1 1 = .ok res
      ∧ res.hidden_neuron__model_id
          = idList (widthsOf 1 1 1) (numModels 1 ["ReLU"].length 1 1 1)
      ∧ res.hidden_neuron__model_id.length
          = ((List.range (numModels 1 ["ReLU"].length 1 1 1)).map
              (wfun (widthsOf 1 1 1))).sum
      ∧ (∀ m < numModels 1 ["ReLU"].length 1 1 1,
          res.hidden_neuron__model_id.count m = wfun (widthsOf 1 1 1) m) :=
  C3_partition_invariant 1 ["ReLU"] 1 1 1 le_rfl (by simp) (by simp) le_rfl le_rfl

/-- Claim C8: `build_model_ids` raises a `ValueError` whenever the activation
list is empty, and whenever two activation functions have the same kind
(class name); both checks run before the assignment array is built (an empty
or duplicated list errors even for `step = 0`, whose own `RuntimeError` would
otherwise fire at `torch.arange`), and for a non-empty list of pairwise
distinct kinds no configuration error is raised: with `step ≥ 1` the call
succeeds, and with `step = 0` the error is `torch.arange`'s `RuntimeError`,
not a `ValueError`. -/
theorem C8_validation (names : List String) (r : ℕ) (minN maxN step : ℤ) :
    (build_model_ids r [] minN maxN step = .error .emptyActivations)
    ∧ (names ≠ [] → ¬ names.Nodup →
        build_model_ids r names minN maxN step = .error .duplicateActivations)
    ∧ (names ≠ [] → names.Nodup → 1 ≤ step →
        ∃ res, build_model_ids r names minN maxN step = .ok res)
    ∧ (names ≠ [] → names.Nodup → step = 0 →
        build_model_ids r names minN maxN step = .error .stepZero) := by
  refine ⟨rfl, ?_, ?_, ?_⟩
  · intro hne hnd
    have hlen : names.dedup.length ≠ names.length := by
      intro hlen
      have heq : names.dedup = names := (List.dedup_sublist names).eq_of_length hlen
      exact hnd (heq ▸ List.nodup_dedup names)
    unfold build_model_ids
    rw [if_neg (by simpa using hne), if_pos hlen]
  · intro hne hnd hstep
    unfold build_model_ids
    rw [if_neg (by simpa using hne), if_neg (by rw [List.dedup_eq_self.mpr hnd]; simp),
      if_neg (by omega : ¬ step = 0)]
    exact ⟨_, rfl⟩
  · intro hne hnd hstep
    unfold build_model_ids
    rw [if_neg (by simpa using hne), if_neg (by rw [List.dedup_eq_self.mpr hnd]; simp),
      if_pos hstep]

theorem C8_validation_witness :
    (build_model_ids 1 [] 1 1 1 = .error .emptyActivations)
    ∧ (build_model_ids 1 ["Sigmoid", "Sigmoid"] 1 1 1 = .error .duplicateActivations)
    ∧ (∃ res, build_model_ids 1 ["ReLU", "Sigmoid"] 1 3 1 = .ok res)
    ∧ (build_model_ids 1 ["ReLU", "Sigmoid"] 1 3 0 = .error .stepZero) :=
  ⟨(C8_validation [] 1 1 1 1).1,
   (C8_validation ["Sigmoid", "Sigmoid"] 1 1 1 1).2.1 (by simp) (by simp),
   (C8_validation ["ReLU", "Sigmoid"] 1 1 3 1).2.2.1 (by simp) (by decide) (by norm_num),
   (C8_validation ["ReLU", "Sigmoid"] 1 1 3 0).2.2.2 (by simp) (by decide) rfl⟩

lemma zip_range_map {β : Type} (g : ℕ → β) :
    ∀ (a K nc : ℕ), K ≤ nc →
      (List.range' a K).zip ((List.range' a nc).map g)
        = (List.range' a K).map (fun k => (k, g k)) := by
  intro a K
  induction K generalizing a with
  | zero => intro nc _; simp
  | succ k ih =>
    intro nc hnc
    obtain ⟨m, rfl⟩ : ∃ m, nc = m + 1 := ⟨nc - 1, by omega⟩
    rw [List.range'_succ, List.range'_succ, List.map_cons, List.zip_cons_cons,
      List.map_cons, ih (a + 1) m (by omega)]

lemma sum_map_const_nat (K c : ℕ) : ((List.range K).map (fun _ => c)).sum = K * c := by
  induction K with
  | zero => simp
  | succ n ih =>
    rw [List.range_succ, List.map_append, List.sum_append, ih]
    simp
    ring

/-- On a hidden row that covers at least `K` full chunks, `apply_activations`
does not raise: `torch.split` produces at least `K` chunks of exactly `split`
columns, `zip` truncates to the first `K` of them, the uniformity check
passes, and the result is the concatenation of the activated chunks. -/
lemma apply_activations_chunks_ok (K : ℕ) (acts : ℕ → ℚ → ℚ) (split : ℕ)
    (hs : 0 < split) (l : List ℚ) (hK : K * split ≤ l.length) (hKpos : 0 < K) :
    apply_activations_chunks K acts split l
      = .ok (((List.range K).map
          (fun k => ((l.drop (k * split)).take split).map (acts k))).flatten) := by
  have hnc : K ≤ (l.length + split - 1) / split := by
    rw [Nat.le_div_iff_mul_le hs]
    omega
  have hchunks : chunkList split l
      = (List.range ((l.length + split - 1) / split)).map
          (fun k => (l.drop (k * split)).take split) := by
    unfold chunkList
    rw [if_neg (by omega : ¬ split = 0)]
  have hfull : ∀ k < K, ((l.drop (k * split)).take split).length = split := by
    intro k hk
    have hle : (k + 1) * split ≤ l.length :=
      le_trans (Nat.mul_le_mul_right split (by omega)) hK
    rw [List.length_take, List.length_drop]
    have : k * split + split ≤ l.length := by
      calc k * split + split = (k + 1) * split := by ring
      _ ≤ l.length := hle
    omega
  have hzip : (List.range K).zip (chunkList split l)
      = (List.range K).map (fun k => (k, (l.drop (k * split)).take split)) := by
    rw [hchunks, List.range_eq_range', List.range_eq_range']
    exact zip_range_map _ 0 K _ hnc
  have hhead : ((chunkList split l).headD []).length = split := by
    rw [hchunks]
    have hnc1 : 0 < (l.length + split - 1) / split := by omega
    obtain ⟨m, hm⟩ : ∃ m, (l.length + split - 1) / split = m + 1 :=
      ⟨(l.length + split - 1) / split - 1, by omega⟩
    rw [hm, List.range_succ_eq_map, List.map_cons]
    simp only [List.headD_cons]
    simpa using hfull 0 hKpos
  unfold apply_activations_chunks
  rw [if_neg (by omega : ¬ (split = 0 ∧ l ≠ []))]
  rw [hzip]
  rw [if_pos ?hall]
  case hall =>
    rw [List.all_eq_true]
    intro p hp
    obtain ⟨k, hk, rfl⟩ := List.mem_map.mp hp
    have hkK : k < K := List.mem_range.mp hk
    apply decide_eq_true
    rw [hfull k hkK, hhead]
  rw [List.map_map]
  rfl

lemma apply_activations_chunks_ok_length (K : ℕ) (acts : ℕ → ℚ → ℚ) (split : ℕ)
    (hs : 0 < split) (l : List ℚ) (hK : K * split ≤ l.length) (hKpos : 0 < K) :
    (((List.range K).map
        (fun k => ((l.drop (k * split)).take split).map (acts k))).flatten).length
      = K * split := by
  rw [List.length_flatten, List.map_map]
  have hmapeq : (List.range K).map
      (List.length ∘ fun k => ((l.drop (k * split)).take split).map (acts k))
      = (List.range K).map (fun _ => split) := by
    apply List.map_congr_left
    intro k hk
    have hkK : k < K := List.mem_range.mp hk
    have hle : (k + 1) * split ≤ l.length :=
      le_trans (Nat.mul_le_mul_right split (by omega)) hK
    simp only [Function.comp_apply, List.length_map, List.length_take, List.length_drop]
    have : k * split + split ≤ l.length := by
      calc k * split + split = (k + 1) * split := by ring
      _ ≤ l.length := hle
    omega
  rw [hmapeq, sum_map_const_nat]

/-- Bridge between the raw `torch.split` semantics of `apply_activations` and
the positional form used in `Engine.forward`: on an exactly divisible row,
the activated value at column `n` is `activations[n / split]` applied to the
original column `n`. -/
lemma chunks_value_getD (split : ℕ) (hs : 0 < split) :
    ∀ (K : ℕ) (acts : ℕ → ℚ → ℚ) (l : List ℚ), l.length = K * split →
      ∀ n < K * split,
        ((((List.range K).map
            (fun k => ((l.drop (k * split)).take split).map (acts k))).flatten).getD n 0)
          = acts (n / split) (l.getD n 0) := by
  intro K
  induction K with
  | zero => intro acts l _ n hn; omega
  | succ K ih =>
    intro acts l hlen n hn
    have hsplitle : split ≤ l.length := by
      rw [hlen]
      calc split = 1 * split := (one_mul split).symm
      _ ≤ (K + 1) * split := Nat.mul_le_mul_right split (by omega)
    rw [List.range_succ_eq_map, List.map_cons, List.flatten_cons]
    have hhead_len : (((l.drop (0 * split)).take split).map (acts 0)).length = split := by
      simp only [Nat.zero_mul, List.drop_zero, List.length_map, List.length_take]
      omega
    by_cases hcase : n < split
    · rw [List.getD_append _ _ _ _ (by rw [hhead_len]; exact hcase)]
      have hn_l : n < l.length := by omega
      rw [Nat.div_eq_of_lt hcase,
        List.getD_eq_getElem _ _ (by rw [hhead_len]; exact hcase),
        List.getD_eq_getElem _ _ hn_l]
      simp only [Nat.zero_mul, List.drop_zero, List.getElem_map, List.getElem_take]
    · push_neg at hcase
      rw [List.getD_append_right _ _ _ _ (by rw [hhead_len]; exact hcase), hhead_len]
      rw [List.map_map]
      have htail : (List.range K).map
          ((fun k => ((l.drop (k * split)).take split).map (acts k)) ∘ Nat.succ)
          = (List.range K).map
            (fun k => (((l.drop split).drop (k * split)).take split).map
              ((fun j => acts (j + 1)) k)) := by
        apply List.map_congr_left
        intro k _
        simp only [Function.comp_apply, List.drop_drop]
        ring_nf
        have e2 : Nat.succ k * split = split + split * k := by
          rw [Nat.succ_mul]
          ring
        have e1 : Nat.succ k = 1 + k := by omega
        rw [e2, e1]
      rw [htail, ih (fun j => acts (j + 1)) (l.drop split)
        (by
          rw [List.length_drop, hlen]
          have hexp : (K + 1) * split = K * split + split := by ring
          omega)
        (n - split)
        (by
          have hexp : (K + 1) * split = K * split + split := by ring
          omega)]
      have hidx : (n - split) / split + 1 = n / split := by
        conv_rhs => rw [show n = (n - split) + split by omega]
        rw [Nat.add_div_right _ hs]
      rw [← hidx]
      congr 1
      have hb1 : n - split < (l.drop split).length := by
        rw [List.length_drop, hlen]
        have : (K + 1) * split = K * split + split := by ring
        omega
      have hb2 : n < l.length := by
        rw [hlen]
        have : (K + 1) * split = K * split + split := by ring
        omega
      rw [List.getD_eq_getElem _ _ hb1, List.getD_eq_getElem _ _ hb2,
        List.getElem_drop]
      congr 1
      omega

/-- Claim C4, evaluated at a failing input (`total_hidden_neurons = 5`,
`K = 2`): `apply_activations` does NOT raise its `ShapeMismatchError`-kind
`RuntimeError` — `torch.split(2)` yields three chunks `[2, 2, 1]`, `zip`
silently drops the third, the uniformity check only sees the two full chunks
and passes — and the activated row comes back with `4` columns.  The forward
call then fails, but with a generic broadcast shape error at the
`x[:, :, None] * weight.T` product, not via the dedicated check. -/
theorem C4_dead_branch_counterexample :
    apply_activations_chunks 2 (fun _ q => q) (5 / 2) (List.replicate 5 (0 : ℚ))
        = .ok (List.replicate 4 (0 : ℚ))
    ∧ forward_shape 2 (fun _ q => q) (List.replicate 5 (0 : ℚ))
        = .error "broadcast_mismatch" :=
  ⟨by rfl, by rfl⟩

/-- Claim C4, amended: for every engine row whose width is not divisible by
the number of activations `K`, the forward computation still fails before
producing output, but never through the `ShapeMismatchError` branch of
`apply_activations` (which silently truncates); the error is the broadcast
mismatch of the multiply step (or `torch.split`'s zero-split-size error when
`total < K`).  For divisible widths no error occurs at all. -/
theorem C4_amended_shape_errors (K : ℕ) (acts : ℕ → ℚ → ℚ) (h : List ℚ)
    (hK : 1 ≤ K) (hN : 1 ≤ h.length) :
    (¬ (K ∣ h.length) →
      apply_activations_chunks K acts (h.length / K) h ≠ .error "ShapeMismatch"
      ∧ ∃ msg, forward_shape K acts h = .error msg
          ∧ (msg = "broadcast_mismatch" ∨ msg = "split_size_zero"))
    ∧ ((K ∣ h.length) →
      ∃ a, forward_shape K acts h = .ok a ∧ a.length = h.length) := by
  constructor
  · intro hndvd
    by_cases hsplit0 : h.length / K = 0
    · have hne : h ≠ [] := by
        intro h0
        rw [h0] at hN
        simp at hN
      have happ : apply_activations_chunks K acts (h.length / K) h
          = .error "split_size_zero" := by
        unfold apply_activations_chunks
        rw [if_pos ⟨hsplit0, hne⟩]
      constructor
      · rw [happ]
        intro hcon
        have := Except.error.inj hcon
        simp at this
      · refine ⟨"split_size_zero", ?_, Or.inr rfl⟩
        unfold forward_shape
        rw [happ]
        rfl
    · have hs : 0 < h.length / K := Nat.pos_of_ne_zero hsplit0
      have hKs : K * (h.length / K) ≤ h.length := by
        calc K * (h.length / K) = (h.length / K) * K := by ring
        _ ≤ h.length := Nat.div_mul_le_self _ _
      have happ := apply_activations_chunks_ok K acts (h.length / K) hs h hKs (by omega)
      have hlenval := apply_activations_chunks_ok_length K acts (h.length / K) hs h hKs
        (by omega)
      have hneq : (((List.range K).map
          (fun k => ((h.drop (k * (h.length / K))).take (h.length / K)).map
            (acts k))).flatten).length ≠ h.length := by
        rw [hlenval]
        intro hcon
        exact hndvd ⟨h.length / K, hcon.symm⟩
      constructor
      · rw [happ]
        intro hcon
        exact Except.noConfusion hcon
      · refine ⟨"broadcast_mismatch", ?_, Or.inl rfl⟩
        unfold forward_shape
        rw [happ]
        show (if _ = h.length then _ else Except.error "broadcast_mismatch")
            = Except.error "broadcast_mismatch"
        rw [if_neg hneq]
  · intro hdvd
    obtain ⟨c, hc⟩ := hdvd
    have hcs : h.length / K = c := by
      rw [hc]
      exact Nat.mul_div_cancel_left c (by omega)
    have hc0 : 0 < c := by
      rcases Nat.eq_zero_or_pos c with h0 | h0
      · rw [hc, h0] at hN
        simp at hN
      · exact h0
    have hKs : K * (h.length / K) ≤ h.length := by
      rw [hcs, ← hc]
    have happ := apply_activations_chunks_ok K acts (h.length / K)
      (by omega) h hKs (by omega)
    have hlenval := apply_activations_chunks_ok_length K acts (h.length / K)
      (by omega) h hKs (by omega)
    refine ⟨((List.range K).map
      (fun k => ((h.drop (k * (h.length / K))).take (h.length / K)).map
        (acts k))).flatten, ?_, ?_⟩
    · unfold forward_shape
      rw [happ]
      show (if _ = h.length then Except.ok _ else _) = _
      rw [if_pos (by rw [hlenval, hcs, ← hc])]
    · rw [hlenval, hcs, ← hc]

theorem C4_amended_shape_errors_witness :
    ((¬ ((2 : ℕ) ∣ (List.replicate 5 (0 : ℚ)).length) →
      apply_activations_chunks 2 (fun _ q => q)
          ((List.replicate 5 (0 : ℚ)).length / 2) (List.replicate 5 (0 : ℚ))
        ≠ .error "ShapeMismatch"
      ∧ ∃ msg, forward_shape 2 (fun _ q => q) (List.replicate 5 (0 : ℚ)) = .error msg
          ∧ (msg = "broadcast_mismatch" ∨ msg = "split_size_zero"))
    ∧ (((2 : ℕ) ∣ (List.replicate 5 (0 : ℚ)).length) →
      ∃ a, forward_shape 2 (fun _ q => q) (List.replicate 5 (0 : ℚ)) = .ok a
        ∧ a.length = (List.replicate 5 (0 : ℚ)).length))
    ∧ (∃ a, forward_shape 2 (fun _ q => q) (List.replicate 4 (0 : ℚ)) = .ok a
        ∧ a.length = (List.replicate 4 (0 : ℚ)).length) :=
  ⟨C4_amended_shape_errors 2 (fun _ q => q) (List.replicate 5 (0 : ℚ))
      (by norm_num) (by simp),
   (C4_amended_shape_errors 2 (fun _ q => q) (List.replicate 4 (0 : ℚ))
      (by norm_num) (by simp)).2 (by decide)⟩

lemma startNeuron_succ (L : List ℕ) (m : ℕ) :
    startNeuron L (m + 1) = startNeuron L m + L.count m := by
  simp [startNeuron, List.range_succ]

lemma startNeuron_mono (L : List ℕ) {a b : ℕ} (h : a ≤ b) :
    startNeuron L a ≤ startNeuron L b := by
  induction h with
  | refl => exact le_rfl
  | step _ ih =>
    rename_i n _
    exact le_trans ih (by rw [startNeuron_succ]; exact Nat.le_add_right _ _)

/-- The `[start_idx, end_idx)` slices of two distinct model ids never
overlap: the start offsets are partial sums of the bincount, so the slices
are consecutive intervals. -/
lemma slice_disjoint (L : List ℕ) (l m r : ℕ) (hne : l ≠ m)
    (h1 : startNeuron L m ≤ r) (h2 : r < endNeuron L m) :
    ¬ (startNeuron L l ≤ r ∧ r < endNeuron L l) := by
  rintro ⟨hl1, hl2⟩
  rcases Nat.lt_or_ge l m with h | h
  · have hle : endNeuron L l ≤ startNeuron L m := by
      rw [endNeuron, ← startNeuron_succ]
      exact startNeuron_mono L (by omega)
    omega
  · have hlm : m < l := by omega
    have hle : endNeuron L m ≤ startNeuron L l := by
      rw [endNeuron, ← startNeuron_succ]
      exact startNeuron_mono L (by omega)
    omega

/-- Claim C9: for every subset of model ids passed to `reset_parameters`,
every parameter entry belonging to a model `m'` not in that subset — its
hidden-layer weight rows and bias entries (the rows in
`[start_idx(m'), end_idx(m'))`), its output-weight columns, and its
output-bias row — is left exactly unchanged. -/
theorem C9_reset_frame (e : Engine) (nHW : ℕ → ℕ → ℚ) (nHB : ℕ → ℚ)
    (nOW : ℕ → ℕ → ℚ) (nOB : ℕ → ℕ → ℚ) (ids : List ℕ) (m' : ℕ) (hm' : m' ∉ ids) :
    (∀ r, startNeuron e.hidden_neuron__model_id m' ≤ r →
        r < endNeuron e.hidden_neuron__model_id m' →
      (∀ c, (reset_parameters e nHW nHB nOW nOB ids).hiddenWeight r c
          = e.hiddenWeight r c)
      ∧ (reset_parameters e nHW nHB nOW nOB ids).hiddenBias r = e.hiddenBias r
      ∧ (∀ o, (reset_parameters e nHW nHB nOW nOB ids).outWeight o r
          = e.outWeight o r))
    ∧ (∀ o, (reset_parameters e nHW nHB nOW nOB ids).outBias m' o = e.outBias m' o) := by
  induction ids generalizing e with
  | nil => exact ⟨fun r _ _ => ⟨fun c => rfl, rfl, fun o => rfl⟩, fun o => rfl⟩
  | cons lid rest ih =>
    have hlid : lid ≠ m' := by
      intro h
      exact hm' (h ▸ List.mem_cons_self lid rest)
    have hrest : m' ∉ rest := fun h => hm' (List.mem_cons_of_mem _ h)
    have hstep := ih (resetOne e nHW nHB nOW nOB lid) hrest
    constructor
    · intro r h1 h2
      have hdisj : ¬ (startNeuron e.hidden_neuron__model_id lid ≤ r
          ∧ r < endNeuron e.hidden_neuron__model_id lid) :=
        slice_disjoint e.hidden_neuron__model_id lid m' r hlid h1 h2
      obtain ⟨hW, hB, hOW⟩ := hstep.1 r h1 h2
      refine ⟨fun c => ?_, ?_, fun o => ?_⟩
      · rw [show (reset_parameters e nHW nHB nOW nOB (lid :: rest)).hiddenWeight r c
            = (reset_parameters (resetOne e nHW nHB nOW nOB lid) nHW nHB nOW nOB
                rest).hiddenWeight r c from rfl, hW c]
        show (if _ ∧ _ then _ else e.hiddenWeight r c) = e.hiddenWeight r c
        rw [if_neg hdisj]
      · rw [show (reset_parameters e nHW nHB nOW nOB (lid :: rest)).hiddenBias r
            = (reset_parameters (resetOne e nHW nHB nOW nOB lid) nHW nHB nOW nOB
                rest).hiddenBias r from rfl, hB]
        show (if _ ∧ _ then _ else e.hiddenBias r) = e.hiddenBias r
        rw [if_neg hdisj]
      · rw [show (reset_parameters e nHW nHB nOW nOB (lid :: rest)).outWeight o r
            = (reset_parameters (resetOne e nHW nHB nOW nOB lid) nHW nHB nOW nOB
                rest).outWeight o r from rfl, hOW o]
        show (if _ ∧ _ then _ else e.outWeight o r) = e.outWeight o r
        rw [if_neg hdisj]
    · intro o
      rw [show (reset_parameters e nHW nHB nOW nOB (lid :: rest)).outBias m' o
          = (reset_parameters (resetOne e nHW nHB nOW nOB lid) nHW nHB nOW nOB
              rest).outBias m' o from rfl, hstep.2 o]
      show (if m' = lid then _ else e.outBias m' o) = e.outBias m' o
      rw [if_neg (fun h => hlid h.symm)]

theorem C9_reset_frame_witness :
    (∀ c, (reset_parameters engC9 (fun _ _ => 5) (fun _ => 5) (fun _ _ => 5)
        (fun _ _ => 5) [0]).hiddenWeight 1 c = engC9.hiddenWeight 1 c)
    ∧ (reset_parameters engC9 (fun _ _ => 5) (fun _ => 5) (fun _ _ => 5)
        (fun _ _ => 5) [0]).hiddenBias 1 = engC9.hiddenBias 1
    ∧ (∀ o, (reset_parameters engC9 (fun _ _ => 5) (fun _ => 5) (fun _ _ => 5)
        (fun _ _ => 5) [0]).outWeight o 1 = engC9.outWeight o 1)
    ∧ (∀ o, (reset_parameters engC9 (fun _ _ => 5) (fun _ => 5) (fun _ _ => 5)
        (fun _ _ => 5) [0]).outBias 1 o = engC9.outBias 1 o) := by
  have h := C9_reset_frame engC9 (fun _ _ => 5) (fun _ => 5) (fun _ _ => 5)
    (fun _ _ => 5) [0] 1 (by decide)
  have hr := h.1 1 (by decide) (by decide)
  exact ⟨hr.1, hr.2.1, hr.2.2, h.2⟩

/-- Claim C5, evaluated at a failing input: with the accumulator on the CPU
(the constructor's default), an `update` whose `targets` tensor lives on the
accelerator fails with the index-device `RuntimeError` — `update` only
relocates `predictions` (lines 44-45), never `targets` — while the fully
co-located call succeeds. -/
theorem C5_targets_device_counterexample :
    (MCM.init 1 2 Device.cpu).update Device.cpu [fun _ => 0] Device.cuda [0]
        = .error "index_device"
    ∧ ((MCM.init 1 2 Device.cpu).update Device.cpu [fun _ => 0] Device.cpu [0]).isOk
        = true := by
  constructor
  · unfold MCM.update
    rw [if_neg (by decide : ¬ (Device.cuda = (MCM.init 1 2 Device.cpu).device
        ∨ Device.cuda = Device.cpu))]
  · unfold MCM.update
    rw [if_pos (show Device.cpu = (MCM.init 1 2 Device.cpu).device
          ∨ Device.cpu = Device.cpu from Or.inr rfl),
      if_pos (by decide : (MCM.init 1 2 Device.cpu).validBatch [fun _ => 0] [0])]
    rfl

/-- Claim C5, amended: `update` relocates only `predictions` before indexing
(so the result never depends on the predictions' device), while `targets` is
consumed where it lies; the call behaves exactly like the fully co-located
call whenever `targets` is on the accumulator's device or on the CPU (the
locations `index_put_` accepts for index tensors). -/
theorem C5_amended_device_handling (st : MCM) (pd : Device) (preds : List (ℕ → ℕ))
    (td : Device) (tgts : List ℕ) (h : td = st.device ∨ td = Device.cpu) :
    st.update pd preds td tgts = st.update st.device preds st.device tgts := by
  unfold MCM.update
  rw [if_pos h, if_pos (Or.inl rfl)]

theorem C5_amended_device_handling_witness :
    (MCM.init 1 2 Device.cuda).update Device.cpu [fun _ => 0] Device.cpu [0]
      = (MCM.init 1 2 Device.cuda).update (MCM.init 1 2 Device.cuda).device
          [fun _ => 0] (MCM.init 1 2 Device.cuda).device [0] :=
  C5_amended_device_handling (MCM.init 1 2 Device.cuda) Device.cpu [fun _ => 0]
    Device.cpu [0] (Or.inr rfl)

/-- Claim C6: updating with two consecutive sub-batches yields exactly the
same confusion-matrix state as a single update on the concatenated batch. -/
theorem C6_update_additivity (st : MCM) (p1 p2 : List (ℕ → ℕ)) (t1 t2 : List ℕ)
    (h1 : st.validBatch p1 t1) (h2 : st.validBatch p2 t2) :
    (st.update st.device p1 st.device t1).bind
        (fun st1 => st1.update st1.device p2 st1.device t2)
      = st.update st.device (p1 ++ p2) st.device (t1 ++ t2) := by
  have hcat : st.validBatch (p1 ++ p2) (t1 ++ t2) := by
    refine ⟨?_, ?_, ?_⟩
    · rw [List.length_append, List.length_append, h1.1, h2.1]
    · intro t ht
      rcases List.mem_append.mp ht with h | h
      · exact h1.2.1 t h
      · exact h2.2.1 t h
    · intro p hp
      rcases List.mem_append.mp hp with h | h
      · exact h1.2.2 p h
      · exact h2.2.2 p h
  unfold MCM.update
  rw [if_pos (Or.inl rfl), if_pos (Or.inl rfl), if_pos h1, if_pos hcat]
  show (if _ ∨ _ then _ else _) = _
  rw [if_pos (Or.inl rfl)]
  split
  · dsimp only
    congr 1
    congr 1
    funext j a b
    by_cases hj : j < st.n_models
    · simp only [if_pos hj]
      rw [List.zip_append h1.1.symm, List.countP_append]
      push_cast
      ring
    · simp only [if_neg hj]
      ring
  · rename_i hcond
    exact absurd h2 hcond

theorem C6_update_additivity_witness :
    ((MCM.init 1 2 Device.cpu).update (MCM.init 1 2 Device.cpu).device [fun _ => 0]
        (MCM.init 1 2 Device.cpu).device [0]).bind
      (fun st1 => st1.update st1.device [fun _ => 1] st1.device [1])
      = (MCM.init 1 2 Device.cpu).update (MCM.init 1 2 Device.cpu).device
          ([fun _ => 0] ++ [fun _ => 1]) (MCM.init 1 2 Device.cpu).device
          ([0] ++ [1]) :=
  C6_update_additivity (MCM.init 1 2 Device.cpu) [fun _ => 0] [fun _ => 1] [0] [1]
    (by decide) (by decide)

/-- Claim C7: whenever the MCC denominator product
`(total² - Σ row_sums²) * (total² - Σ col_sums²)` is exactly zero (e.g. the
model predicted one constant class over the whole batch), `calculate_metrics`
returns the fixed sentinel `1e-9` for that model's Matthews correlation
coefficient — the masked write of line 103 replaces the NaN/inf the float
division would have produced, so no NaN and no exception escapes. -/
theorem C7_degenerate_mcc_sentinel (st : MCM) (j : ℕ)
    (h : st.covYpyp j * st.covYtyt j = 0) :
    (st.calculate_metrics).matthews_corrcoef j = .sentinel (1 / 1000000000) := by
  show st.matthews j = _
  unfold MCM.matthews
  rw [if_pos h]

theorem C7_degenerate_mcc_sentinel_witness :
    stC7.covYpyp 0 * stC7.covYtyt 0 = 0
    ∧ (stC7.calculate_metrics).matthews_corrcoef 0 = .sentinel (1 / 1000000000) :=
  ⟨by decide, C7_degenerate_mcc_sentinel stC7 0 (by decide)⟩

lemma countP_entry_total (nc : ℕ) (j : ℕ) :
    ∀ (l : List (ℕ × (ℕ → ℕ))), (∀ x ∈ l, x.1 < nc ∧ x.2 j < nc) →
      (∑ a ∈ Finset.range nc, ∑ b ∈ Finset.range nc,
        ((l.countP (fun tp => tp.1 = a ∧ tp.2 j = b) : ℕ) : ℤ)) = l.length := by
  intro l
  induction l with
  | nil => intro _; simp
  | cons x l ih =>
    intro hval
    have hx := hval x (List.mem_cons_self x l)
    have htail : ∀ y ∈ l, y.1 < nc ∧ y.2 j < nc :=
      fun y hy => hval y (List.mem_cons_of_mem x hy)
    simp only [List.countP_cons]
    push_cast
    rw [show (∑ a ∈ Finset.range nc, ∑ b ∈ Finset.range nc,
        (((l.countP (fun tp => tp.1 = a ∧ tp.2 j = b) : ℕ) : ℤ)
          + if (decide (x.1 = a ∧ x.2 j = b)) = true then 1 else 0))
        = (∑ a ∈ Finset.range nc, ∑ b ∈ Finset.range nc,
            ((l.countP (fun tp => tp.1 = a ∧ tp.2 j = b) : ℕ) : ℤ))
          + (∑ a ∈ Finset.range nc, ∑ b ∈ Finset.range nc,
            (if (decide (x.1 = a ∧ x.2 j = b)) = true then (1:ℤ) else 0)) from by
      rw [← Finset.sum_add_distrib]
      apply Finset.sum_congr rfl
      intro a _
      rw [← Finset.sum_add_distrib]]
    rw [ih htail]
    have hone : (∑ a ∈ Finset.range nc, ∑ b ∈ Finset.range nc,
        (if (decide (x.1 = a ∧ x.2 j = b)) = true then (1:ℤ) else 0)) = 1 := by
      have hinner : ∀ a, (∑ b ∈ Finset.range nc,
          (if (decide (x.1 = a ∧ x.2 j = b)) = true then (1:ℤ) else 0))
          = if x.1 = a then 1 else 0 := by
        intro a
        by_cases ha : x.1 = a
        · simp only [decide_eq_true_eq, ha, true_and]
          rw [Finset.sum_ite_eq (Finset.range nc) (x.2 j) (fun _ => (1:ℤ))]
          rw [if_pos (Finset.mem_range.mpr hx.2)]
          simp
        · simp [ha]
      rw [Finset.sum_congr rfl (fun a _ => hinner a),
        Finset.sum_ite_eq (Finset.range nc) x.1 (fun _ => (1:ℤ)),
        if_pos (Finset.mem_range.mpr hx.1)]
    rw [hone]
    simp only [List.length_cons]
    push_cast
    ring

/-- Claim C10: every `update` call with a batch of `b` samples increments
each in-range model's confusion-matrix entry total by exactly `b` (so all
models' totals stay equal across any update sequence), and
`calculate_metrics` normalizes every model's accuracy and true-negative
counts by model 0's total (`cm[0].sum()`) alone. -/
theorem C10_equal_totals (st : MCM) (preds : List (ℕ → ℕ)) (tgts : List ℕ)
    (hval : st.validBatch preds tgts) (j : ℕ) (hj : j < st.n_models) :
    ∃ st', st.update st.device preds st.device tgts = .ok st'
      ∧ st'.entrySum j = st.entrySum j + tgts.length
      ∧ (st'.calculate_metrics).overall_acc j
          = (st'.tpSum j : ℚ) / (st'.entrySum 0 : ℚ)
      ∧ (∀ c, st'.tn j c = st'.entrySum 0 - st'.fn j c - st'.fp j c - st'.tp j c) := by
  refine ⟨{ st with cm := fun j' a b => st.cm j' a b +
      if j' < st.n_models then
        (((tgts.zip preds).countP (fun tp => tp.1 = a ∧ tp.2 j' = b) : ℕ) : ℤ)
      else 0 }, ?_, ?_, rfl, fun c => rfl⟩
  · unfold MCM.update
    rw [if_pos (Or.inl rfl), if_pos hval]
  · have hzip_val : ∀ x ∈ tgts.zip preds, x.1 < st.n_classes ∧ x.2 j < st.n_classes := by
      intro x hx
      have hmem := List.of_mem_zip hx
      exact ⟨hval.2.1 x.1 hmem.1, hval.2.2 x.2 hmem.2 j hj⟩
    have hziplen : (tgts.zip preds).length = tgts.length := by
      rw [List.length_zip, hval.1, Nat.min_self]
    show (∑ a ∈ Finset.range st.n_classes, ∑ b ∈ Finset.range st.n_classes,
        (st.cm j a b + if j < st.n_models then
          (((tgts.zip preds).countP (fun tp => tp.1 = a ∧ tp.2 j = b) : ℕ) : ℤ)
        else 0)) = st.entrySum j + tgts.length
    simp only [if_pos hj]
    rw [show (∑ a ∈ Finset.range st.n_classes, ∑ b ∈ Finset.range st.n_classes,
        (st.cm j a b
          + (((tgts.zip preds).countP (fun tp => tp.1 = a ∧ tp.2 j = b) : ℕ) : ℤ)))
        = (∑ a ∈ Finset.range st.n_classes, ∑ b ∈ Finset.range st.n_classes, st.cm j a b)
          + (∑ a ∈ Finset.range st.n_classes, ∑ b ∈ Finset.range st.n_classes,
            (((tgts.zip preds).countP (fun tp => tp.1 = a ∧ tp.2 j = b) : ℕ) : ℤ)) from by
      rw [← Finset.sum_add_distrib]
      apply Finset.sum_congr rfl
      intro a _
      rw [← Finset.sum_add_distrib]]
    rw [countP_entry_total st.n_classes j (tgts.zip preds) hzip_val, hziplen]
    rfl

theorem C10_equal_totals_witness :
    ∃ st', (MCM.init 2 2 Device.cpu).update (MCM.init 2 2 Device.cpu).device
        [fun _ => 0] (MCM.init 2 2 Device.cpu).device [0] = .ok st'
      ∧ st'.entrySum 1 = (MCM.init 2 2 Device.cpu).entrySum 1 + [(0:ℕ)].length
      ∧ (st'.calculate_metrics).overall_acc 1
          = (st'.tpSum 1 : ℚ) / (st'.entrySum 0 : ℚ)
      ∧ (∀ c, st'.tn 1 c = st'.entrySum 0 - st'.fn 1 c - st'.fp 1 c - st'.tp 1 c) :=
  C10_equal_totals (MCM.init 2 2 Device.cpu) [fun _ => 0] [0] (by decide) 1 (by decide)

end PMLP
